import Mathlib

/-!
# Verification of the bignum comparator (`bignum_cmp`)

Shallow embedding of the bignum comparison module of the `bignum-cmp`
repository.  The data layout (`bignum_t` with a fixed-capacity array of
64-bit limbs `words` and a used-length `len`) is taken from the repository
tests (`src/tests/test_bignum_cmp.c`, helper `bignum_init_from_array`) and
the public header `src/include/bignum_cmp.h`.  The comparison function's
body is not in the repository sources (only its declaration, documented
algorithm, and tests are), so it is modelled from the specification, which
agrees line by line with the header's documented algorithm.
-/

namespace BignumCmp

/-- Limbs are `uint64_t` machine words (see `bignum_init_from_array` in the
tests), so every limb lies below `2 ^ 64`. -/
def LIMB_BASE : Nat := 2 ^ 64

/-- C's `INT_MIN` for the 32-bit `int` result type: the error sentinel
`BIGNUM_CMP_ERROR_NULL` of `bignum_cmp_status_t` in `bignum_cmp.h`. -/
def INT_MIN : Int := -2147483648

/-- The `bignum_t` structure consumed by the comparator: `words` is the
limb array (index 0 = least-significant limb, physical length = the
compile-time capacity `BIGNUM_CAPACITY`), `len` is the used-length.
Field names follow the repository tests (`bn.words`, `bn.len`). -/
structure bignum_t where
  words : List Nat
  len : Nat
deriving Repr, DecidableEq

/-- Well-formedness of a `bignum_t` with capacity `cap`: the limb array
physically holds `cap` limbs, the used-length satisfies
`0 ≤ len ≤ cap`, and every limb is a 64-bit value. -/
def wf (cap : Nat) (x : bignum_t) : Prop :=
  x.words.length = cap ∧ x.len ≤ cap ∧ ∀ w ∈ x.words, w < LIMB_BASE

instance (cap : Nat) (x : bignum_t) : Decidable (wf cap x) := by
  unfold wf; infer_instance

/-- The normalization invariant assumed (not enforced) by the comparator:
`len = 0`, or the most-significant used limb (index `len - 1`) is nonzero. -/
def normalized (x : bignum_t) : Prop :=
  x.len = 0 ∨ x.words.getD (x.len - 1) 0 ≠ 0

instance (x : bignum_t) : Decidable (normalized x) := by
  unfold normalized; infer_instance

/-- Modelled from the spec: the reverse limb scan of `bignum_cmp`
(contract step 3 in spec §4.1; the body of `bignum_cmp` is not under the
repository sources).  `cmp_words a b n` scans indices `n-1` down to `0`,
most-significant first: at the first index where the limbs differ it
returns `1` if `a`'s limb is greater and `-1` if smaller; if no index
differs it returns `0`. -/
def cmp_words (a b : List Nat) : Nat → Int
  | 0 => 0
  | n + 1 =>
    if a.getD n 0 > b.getD n 0 then 1
    else if a.getD n 0 < b.getD n 0 then -1
    else cmp_words a b n

/-- Modelled from the spec: `bignum_cmp` (spec §4.1 `compare`; its body is
not under the repository sources — only the declaration and documented
algorithm in `bignum_cmp.h` and the tests are).  An absent (`NULL`)
pointer is an `Option` that is `none`.  Contract: if either reference is
absent return the sentinel `INT_MIN`; otherwise compare used-lengths
(`a.len > b.len ⇒ 1`, `a.len < b.len ⇒ -1`); on equal lengths run the
most-significant-first limb scan. -/
def bignum_cmp (a b : Option bignum_t) : Int :=
  match a, b with
  | some a, some b =>
    if a.len > b.len then 1
    else if a.len < b.len then -1
    else cmp_words a.words b.words a.len
  | _, _ => INT_MIN

/-- The value represented by the first `n` limbs of a limb list:
`sum(limbs[i] * BASE^i for i in 0..n)` (spec §3). -/
def valN (ws : List Nat) : Nat → Nat
  | 0 => 0
  | n + 1 => valN ws n + ws.getD n 0 * LIMB_BASE ^ n

/-- The value represented by a `bignum_t`:
`sum(limbs[i] * BASE^i for i in 0..length)` (spec §3). -/
def bignum_value (x : bignum_t) : Nat :=
  valN x.words x.len

/-! ## Basic lemmas -/

/-- Unfolding `bignum_cmp` on two present arguments. -/
theorem bignum_cmp_some_some (a b : bignum_t) :
    bignum_cmp (some a) (some b) =
      if a.len > b.len then 1
      else if a.len < b.len then -1
      else cmp_words a.words b.words a.len := rfl

/-- Every limb read through `getD` from a list of 64-bit limbs is a
64-bit value (out-of-range reads give the default `0`). -/
theorem getD_lt_base {ws : List Nat} (h : ∀ w ∈ ws, w < LIMB_BASE) (i : Nat) :
    ws.getD i 0 < LIMB_BASE := by
  rcases Nat.lt_or_ge i ws.length with hi | hi
  · rw [List.getD_eq_getElem ws 0 hi]
    exact h _ (List.getElem_mem hi)
  · rw [List.getD_eq_default ws 0 hi]
    norm_num [LIMB_BASE]

/-- The value of the first `n` limbs is below `BASE ^ n` when every limb
is a 64-bit value. -/
theorem valN_lt {ws : List Nat} (h : ∀ w ∈ ws, w < LIMB_BASE) (n : Nat) :
    valN ws n < LIMB_BASE ^ n := by
  induction n with
  | zero => simp [valN]
  | succ n ih =>
    have hw : ws.getD n 0 ≤ LIMB_BASE - 1 := Nat.le_sub_one_of_lt (getD_lt_base h n)
    have h2 : ws.getD n 0 * LIMB_BASE ^ n ≤ (LIMB_BASE - 1) * LIMB_BASE ^ n :=
      Nat.mul_le_mul_right _ hw
    have key : LIMB_BASE ^ n + (LIMB_BASE - 1) * LIMB_BASE ^ n = LIMB_BASE ^ (n + 1) := by
      have h1 : LIMB_BASE ^ n + (LIMB_BASE - 1) * LIMB_BASE ^ n
          = (1 + (LIMB_BASE - 1)) * LIMB_BASE ^ n := by ring
      have h3 : 1 + (LIMB_BASE - 1) = LIMB_BASE := by norm_num [LIMB_BASE]
      rw [h1, h3, pow_succ]
      ring
    calc valN ws (n + 1) = valN ws n + ws.getD n 0 * LIMB_BASE ^ n := rfl
    _ < LIMB_BASE ^ n + ws.getD n 0 * LIMB_BASE ^ n := Nat.add_lt_add_right ih _
    _ ≤ LIMB_BASE ^ n + (LIMB_BASE - 1) * LIMB_BASE ^ n := Nat.add_le_add_left h2 _
    _ = LIMB_BASE ^ (n + 1) := key

/-- If the limb at index `n` is nonzero, the value of the first `n + 1`
limbs is at least `BASE ^ n`. -/
theorem le_valN_succ {ws : List Nat} {n : Nat} (h : ws.getD n 0 ≠ 0) :
    LIMB_BASE ^ n ≤ valN ws (n + 1) := by
  have h1 : 1 ≤ ws.getD n 0 := Nat.one_le_iff_ne_zero.mpr h
  calc LIMB_BASE ^ n = 1 * LIMB_BASE ^ n := (one_mul _).symm
  _ ≤ ws.getD n 0 * LIMB_BASE ^ n := Nat.mul_le_mul_right _ h1
  _ ≤ valN ws n + ws.getD n 0 * LIMB_BASE ^ n := Nat.le_add_left _ _
  _ = valN ws (n + 1) := rfl

/-- The reverse limb scan decides the numeric ordering of the represented
values, provided every limb is a 64-bit value. -/
theorem cmp_words_eq_compare {a b : List Nat}
    (ha : ∀ w ∈ a, w < LIMB_BASE) (hb : ∀ w ∈ b, w < LIMB_BASE) (n : Nat) :
    cmp_words a b n =
      if valN b n < valN a n then 1
      else if valN a n < valN b n then -1
      else 0 := by
  induction n with
  | zero => simp [cmp_words, valN]
  | succ n ih =>
    rcases Nat.lt_trichotomy (a.getD n 0) (b.getD n 0) with hlt | heq | hgt
    · have hv : valN a (n + 1) < valN b (n + 1) := by
        have h1 : valN a n < LIMB_BASE ^ n := valN_lt ha n
        have h2 : a.getD n 0 + 1 ≤ b.getD n 0 := hlt
        calc valN a (n + 1) = valN a n + a.getD n 0 * LIMB_BASE ^ n := rfl
        _ < LIMB_BASE ^ n + a.getD n 0 * LIMB_BASE ^ n := Nat.add_lt_add_right h1 _
        _ = (a.getD n 0 + 1) * LIMB_BASE ^ n := by ring
        _ ≤ b.getD n 0 * LIMB_BASE ^ n := Nat.mul_le_mul_right _ h2
        _ ≤ valN b n + b.getD n 0 * LIMB_BASE ^ n := Nat.le_add_left _ _
        _ = valN b (n + 1) := rfl
      show (if b.getD n 0 < a.getD n 0 then (1 : Int)
        else if a.getD n 0 < b.getD n 0 then -1 else cmp_words a b n) = _
      rw [if_neg (by omega), if_pos hlt, if_neg (by omega), if_pos hv]
    · have hcmp : cmp_words a b (n + 1) = cmp_words a b n := by
        show (if b.getD n 0 < a.getD n 0 then (1 : Int)
          else if a.getD n 0 < b.getD n 0 then -1 else cmp_words a b n) = _
        rw [if_neg (by omega), if_neg (by omega)]
      have hva : valN a (n + 1) = valN a n + b.getD n 0 * LIMB_BASE ^ n := by
        show valN a n + a.getD n 0 * LIMB_BASE ^ n = _
        rw [heq]
      have hvb : valN b (n + 1) = valN b n + b.getD n 0 * LIMB_BASE ^ n := rfl
      rw [hcmp, ih, hva, hvb]
      rcases Nat.lt_trichotomy (valN a n) (valN b n) with h | h | h
      · rw [if_neg (by omega), if_pos h, if_neg (by omega), if_pos (by omega)]
      · rw [if_neg (by omega), if_neg (by omega), if_neg (by omega), if_neg (by omega)]
      · rw [if_pos h, if_pos (by omega)]
    · have hv : valN b (n + 1) < valN a (n + 1) := by
        have h1 : valN b n < LIMB_BASE ^ n := valN_lt hb n
        have h2 : b.getD n 0 + 1 ≤ a.getD n 0 := hgt
        calc valN b (n + 1) = valN b n + b.getD n 0 * LIMB_BASE ^ n := rfl
        _ < LIMB_BASE ^ n + b.getD n 0 * LIMB_BASE ^ n := Nat.add_lt_add_right h1 _
        _ = (b.getD n 0 + 1) * LIMB_BASE ^ n := by ring
        _ ≤ a.getD n 0 * LIMB_BASE ^ n := Nat.mul_le_mul_right _ h2
        _ ≤ valN a n + a.getD n 0 * LIMB_BASE ^ n := Nat.le_add_left _ _
        _ = valN a (n + 1) := rfl
      show (if b.getD n 0 < a.getD n 0 then (1 : Int)
        else if a.getD n 0 < b.getD n 0 then -1 else cmp_words a b n) = _
      rw [if_pos hgt, if_pos hv]

/-- One step of the reverse limb scan. -/
theorem cmp_words_succ (a b : List Nat) (n : Nat) :
    cmp_words a b (n + 1) =
      if b.getD n 0 < a.getD n 0 then 1
      else if a.getD n 0 < b.getD n 0 then -1
      else cmp_words a b n := rfl

/-- The reverse limb scan only ever produces `-1`, `0` or `1`. -/
theorem cmp_words_mem_range (a b : List Nat) (n : Nat) :
    cmp_words a b n = -1 ∨ cmp_words a b n = 0 ∨ cmp_words a b n = 1 := by
  induction n with
  | zero => right; left; rfl
  | succ n ih =>
    rw [cmp_words_succ]
    rcases Nat.lt_trichotomy (a.getD n 0) (b.getD n 0) with h | h | h
    · rw [if_neg (by omega), if_pos h]
      left; rfl
    · rw [if_neg (by omega), if_neg (by omega)]
      exact ih
    · rw [if_pos h]
      right; right; rfl

/-- Swapping the two limb lists negates the scan's result. -/
theorem cmp_words_neg (a b : List Nat) (n : Nat) :
    cmp_words b a n = -cmp_words a b n := by
  induction n with
  | zero => rfl
  | succ n ih =>
    rw [cmp_words_succ, cmp_words_succ]
    rcases Nat.lt_trichotomy (a.getD n 0) (b.getD n 0) with h | h | h
    · rw [if_pos h, if_neg (by omega), if_pos h]
      decide
    · rw [if_neg (by omega), if_neg (by omega), if_neg (by omega), if_neg (by omega)]
      exact ih
    · rw [if_neg (by omega), if_pos h, if_pos h]

/-- The scan reads only the limbs at indices below `n`: replacing each
list by one that agrees on those indices leaves the result unchanged. -/
theorem cmp_words_congr (a b a' b' : List Nat) :
    ∀ n, (∀ i < n, a.getD i 0 = a'.getD i 0) → (∀ i < n, b.getD i 0 = b'.getD i 0) →
      cmp_words a b n = cmp_words a' b' n := by
  intro n
  induction n with
  | zero => intro _ _; rfl
  | succ n ih =>
    intro ha hb
    have h1 : a.getD n 0 = a'.getD n 0 := ha n (Nat.lt_succ_self n)
    have h2 : b.getD n 0 = b'.getD n 0 := hb n (Nat.lt_succ_self n)
    show (if b.getD n 0 < a.getD n 0 then (1 : Int)
        else if a.getD n 0 < b.getD n 0 then -1 else cmp_words a b n) =
      (if b'.getD n 0 < a'.getD n 0 then (1 : Int)
        else if a'.getD n 0 < b'.getD n 0 then -1 else cmp_words a' b' n)
    rw [h1, h2,
      ih (fun i hi => ha i (Nat.lt_succ_of_lt hi)) (fun i hi => hb i (Nat.lt_succ_of_lt hi))]

/-- The first (scanning most-significant-first) differing limb decides
the scan's result, irrespective of lower-index limbs. -/
theorem cmp_words_first_diff (a b : List Nat) :
    ∀ n i, i < n → (∀ j, i < j → j < n → a.getD j 0 = b.getD j 0) →
      a.getD i 0 ≠ b.getD i 0 →
      cmp_words a b n = if b.getD i 0 < a.getD i 0 then 1 else -1 := by
  intro n
  induction n with
  | zero => intro i hi _ _; exact absurd hi (Nat.not_lt_zero i)
  | succ n ih =>
    intro i hi habove hne
    show (if b.getD n 0 < a.getD n 0 then (1 : Int)
      else if a.getD n 0 < b.getD n 0 then -1 else cmp_words a b n) = _
    rcases Nat.lt_or_ge i n with hin | hin
    · have hn : a.getD n 0 = b.getD n 0 := habove n hin (Nat.lt_succ_self n)
      rw [hn, if_neg (by omega), if_neg (by omega)]
      exact ih i hin (fun j hj1 hj2 => habove j hj1 (Nat.lt_succ_of_lt hj2)) hne
    · have hieq : i = n := by omega
      subst hieq
      rcases Nat.lt_or_ge (b.getD i 0) (a.getD i 0) with h | h
      · rw [if_pos h, if_pos h]
      · have h2 : a.getD i 0 < b.getD i 0 := by omega
        rw [if_neg (by omega), if_pos h2, if_neg (by omega)]

/-- If every limb below `n` agrees, the scan returns `0`. -/
theorem cmp_words_eq_zero (a b : List Nat) :
    ∀ n, (∀ i < n, a.getD i 0 = b.getD i 0) → cmp_words a b n = 0 := by
  intro n
  induction n with
  | zero => intro _; rfl
  | succ n ih =>
    intro heq
    have hn : a.getD n 0 = b.getD n 0 := heq n (Nat.lt_succ_self n)
    show (if b.getD n 0 < a.getD n 0 then (1 : Int)
      else if a.getD n 0 < b.getD n 0 then -1 else cmp_words a b n) = 0
    rw [hn, if_neg (by omega), if_neg (by omega)]
    exact ih (fun i hi => heq i (Nat.lt_succ_of_lt hi))

/-- A shorter well-formed number is numerically smaller than a longer
normalized one: its value is below `BASE ^ a.len ≤ BASE ^ (b.len - 1)`,
while the longer number's nonzero top limb contributes at least
`BASE ^ (b.len - 1)`. -/
theorem bignum_value_lt_of_len_lt {cap : Nat} {a b : bignum_t}
    (ha : wf cap a) (_hb : wf cap b) (hnb : normalized b) (h : a.len < b.len) :
    bignum_value a < bignum_value b := by
  have h1 : bignum_value a < LIMB_BASE ^ a.len := valN_lt ha.2.2 a.len
  have hb0 : b.len ≠ 0 := by omega
  have hnb' : b.words.getD (b.len - 1) 0 ≠ 0 := hnb.resolve_left hb0
  have h2 : LIMB_BASE ^ (b.len - 1) ≤ valN b.words ((b.len - 1) + 1) := le_valN_succ hnb'
  have h3 : (b.len - 1) + 1 = b.len := by omega
  rw [h3] at h2
  have h4 : LIMB_BASE ^ a.len ≤ LIMB_BASE ^ (b.len - 1) :=
    Nat.pow_le_pow_right (by norm_num [LIMB_BASE]) (by omega)
  calc bignum_value a < LIMB_BASE ^ a.len := h1
  _ ≤ LIMB_BASE ^ (b.len - 1) := h4
  _ ≤ valN b.words b.len := h2

/-- On well-formed, normalized inputs `bignum_cmp` computes the three-way
numeric comparison of the represented values. -/
theorem bignum_cmp_eq_compare_value {cap : Nat} {a b : bignum_t}
    (ha : wf cap a) (hb : wf cap b) (hna : normalized a) (hnb : normalized b) :
    bignum_cmp (some a) (some b) =
      if bignum_value b < bignum_value a then 1
      else if bignum_value a < bignum_value b then -1
      else 0 := by
  rw [bignum_cmp_some_some]
  rcases Nat.lt_trichotomy a.len b.len with h | h | h
  · have hv := bignum_value_lt_of_len_lt ha hb hnb h
    rw [if_neg (by omega), if_pos h, if_neg (by omega), if_pos hv]
  · rw [if_neg (by omega), if_neg (by omega), cmp_words_eq_compare ha.2.2 hb.2.2]
    unfold bignum_value
    rw [h]
  · have hv := bignum_value_lt_of_len_lt hb ha hna h
    rw [if_pos (by omega), if_pos hv]

/-- On well-formed (not necessarily normalized) inputs, `bignum_cmp`
returns `1` exactly when the key `(len, value)` of `a` is lexicographically
greater than that of `b`. -/
theorem bignum_cmp_eq_one_iff {cap : Nat} {a b : bignum_t}
    (ha : wf cap a) (hb : wf cap b) :
    bignum_cmp (some a) (some b) = 1 ↔
      b.len < a.len ∨ (a.len = b.len ∧ bignum_value b < bignum_value a) := by
  rw [bignum_cmp_some_some]
  rcases Nat.lt_trichotomy a.len b.len with h | h | h
  · rw [if_neg (by omega), if_pos h]
    constructor
    · intro hc; exact absurd hc (by decide)
    · intro hc; rcases hc with hc | ⟨hc, _⟩ <;> omega
  · rw [if_neg (by omega), if_neg (by omega), cmp_words_eq_compare ha.2.2 hb.2.2]
    unfold bignum_value
    rw [h]
    rcases Nat.lt_trichotomy (valN a.words b.len) (valN b.words b.len) with hv | hv | hv
    · rw [if_neg (by omega), if_pos hv]
      constructor
      · intro hc; exact absurd hc (by decide)
      · intro hc; rcases hc with hc | ⟨_, hc⟩ <;> omega
    · rw [if_neg (by omega), if_neg (by omega)]
      constructor
      · intro hc; exact absurd hc (by decide)
      · intro hc; rcases hc with hc | ⟨_, hc⟩ <;> omega
    · rw [if_pos hv]
      exact ⟨fun _ => Or.inr ⟨rfl, hv⟩, fun _ => rfl⟩
  · rw [if_pos h]
    exact ⟨fun _ => Or.inl h, fun _ => rfl⟩

/-- On well-formed inputs, `bignum_cmp` returns `0` exactly when the
used-lengths agree and the represented values agree. -/
theorem bignum_cmp_eq_zero_iff {cap : Nat} {a b : bignum_t}
    (ha : wf cap a) (hb : wf cap b) :
    bignum_cmp (some a) (some b) = 0 ↔
      a.len = b.len ∧ bignum_value a = bignum_value b := by
  rw [bignum_cmp_some_some]
  rcases Nat.lt_trichotomy a.len b.len with h | h | h
  · rw [if_neg (by omega), if_pos h]
    constructor
    · intro hc; exact absurd hc (by decide)
    · intro hc; omega
  · rw [if_neg (by omega), if_neg (by omega), cmp_words_eq_compare ha.2.2 hb.2.2]
    unfold bignum_value
    rw [h]
    rcases Nat.lt_trichotomy (valN a.words b.len) (valN b.words b.len) with hv | hv | hv
    · rw [if_neg (by omega), if_pos hv]
      constructor
      · intro hc; exact absurd hc (by decide)
      · intro hc; omega
    · rw [if_neg (by omega), if_neg (by omega)]
      exact ⟨fun _ => ⟨rfl, hv⟩, fun _ => rfl⟩
    · rw [if_pos hv]
      constructor
      · intro hc; exact absurd hc (by decide)
      · intro hc; omega
  · rw [if_pos (by omega)]
    constructor
    · intro hc; exact absurd hc (by decide)
    · intro hc; omega

/-! ## Claim theorems -/

/-- C1: for non-null, well-formed, normalized inputs, `bignum_cmp`
decides the ordering of the represented values
`sum(limbs[i] * BASE^i for i in 0..length)`: it returns `0` iff the
values are equal, `1` iff `a`'s value is greater, and `-1` iff `a`'s
value is smaller. -/
theorem bignum_cmp_decides_value (cap : Nat) (a b : bignum_t)
    (ha : wf cap a) (hb : wf cap b) (hna : normalized a) (hnb : normalized b) :
    (bignum_cmp (some a) (some b) = 0 ↔ bignum_value a = bignum_value b) ∧
    (bignum_cmp (some a) (some b) = 1 ↔ bignum_value b < bignum_value a) ∧
    (bignum_cmp (some a) (some b) = -1 ↔ bignum_value a < bignum_value b) := by
  rw [bignum_cmp_eq_compare_value ha hb hna hnb]
  rcases Nat.lt_trichotomy (bignum_value a) (bignum_value b) with h | h | h
  · rw [if_neg (by omega), if_pos h]
    refine ⟨?_, ?_, ?_⟩ <;> constructor <;> intro hc <;> omega
  · rw [if_neg (by omega), if_neg (by omega)]
    refine ⟨?_, ?_, ?_⟩ <;> constructor <;> intro hc <;> omega
  · rw [if_pos h]
    refine ⟨?_, ?_, ?_⟩ <;> constructor <;> intro hc <;> omega

/-- Witness for C1 at `a = [1, 1]` (value `BASE + 1`) against
`b = [BASE - 1, 0]` with used-length 1 (value `BASE - 1`). -/
theorem bignum_cmp_decides_value_witness :
    bignum_cmp (some ⟨[1, 1], 2⟩) (some ⟨[LIMB_BASE - 1, 0], 1⟩) = 1 ↔
      bignum_value ⟨[LIMB_BASE - 1, 0], 1⟩ < bignum_value ⟨[1, 1], 2⟩ :=
  (bignum_cmp_decides_value 2 ⟨[1, 1], 2⟩ ⟨[LIMB_BASE - 1, 0], 1⟩
    (by decide) (by decide) (by decide) (by decide)).2.1

/-- C2: a `NULL` pointer in either argument position makes `bignum_cmp`
return the sentinel `INT_MIN`; the sentinel is distinct from every
legitimate ordering value in `{-1, 0, 1}`; and no pair of present
arguments ever produces the sentinel. -/
theorem bignum_cmp_null_sentinel :
    (∀ x : Option bignum_t,
        bignum_cmp none x = INT_MIN ∧ bignum_cmp x none = INT_MIN) ∧
    (INT_MIN ≠ -1 ∧ INT_MIN ≠ 0 ∧ INT_MIN ≠ 1) ∧
    (∀ a b : bignum_t, bignum_cmp (some a) (some b) ≠ INT_MIN) := by
  refine ⟨?_, ⟨by decide, by decide, by decide⟩, ?_⟩
  · intro x
    cases x <;> exact ⟨rfl, rfl⟩
  · intro a b
    rw [bignum_cmp_some_some]
    rcases Nat.lt_trichotomy a.len b.len with h | h | h
    · rw [if_neg (by omega), if_pos h]
      decide
    · rw [if_neg (by omega), if_neg (by omega)]
      rcases cmp_words_mem_range a.words b.words a.len with hr | hr | hr <;> rw [hr] <;> decide
    · rw [if_pos h]
      decide

/-- C3: when the used-lengths differ, `bignum_cmp` is decided by the
lengths alone (`1` if `a` is longer, `-1` if shorter), regardless of limb
contents — in particular `a = [1, 2, 0]` with length 3 beats
`b = [MAX64, MAX64]` with length 2 although `a`'s represented value is
smaller. -/
theorem bignum_cmp_length_dominance :
    (∀ a b : bignum_t, a.len ≠ b.len →
        bignum_cmp (some a) (some b) = if b.len < a.len then 1 else -1) ∧
    (bignum_cmp (some ⟨[1, 2, 0], 3⟩)
        (some ⟨[LIMB_BASE - 1, LIMB_BASE - 1], 2⟩) = 1 ∧
      bignum_value ⟨[1, 2, 0], 3⟩ <
        bignum_value ⟨[LIMB_BASE - 1, LIMB_BASE - 1], 2⟩) := by
  refine ⟨?_, by decide, by decide⟩
  intro a b h
  rw [bignum_cmp_some_some]
  rcases Nat.lt_or_ge b.len a.len with h1 | h1
  · rw [if_pos h1, if_pos h1]
  · have h2 : a.len < b.len := by omega
    rw [if_neg (by omega), if_pos h2, if_neg (by omega)]

/-- Witness for C3's length-dominance implication at lengths 1 and 2. -/
theorem bignum_cmp_length_dominance_witness :
    bignum_cmp (some ⟨[5], 1⟩) (some ⟨[7, 7], 2⟩) = -1 := by
  have h := bignum_cmp_length_dominance.1 ⟨[5], 1⟩ ⟨[7, 7], 2⟩ (by decide)
  rw [if_neg (by decide)] at h
  exact h

/-- C4: with equal used-lengths, the largest index `i` below the length
where the limbs differ (all limbs above it agreeing) alone decides the
result: `1` if `a`'s limb there is greater, `-1` if smaller, irrespective
of any differences at lower indices. -/
theorem bignum_cmp_ms_limb_priority (a b : bignum_t) (hlen : a.len = b.len) (i : Nat)
    (hi : i < a.len)
    (habove : ∀ j, i < j → j < a.len → a.words.getD j 0 = b.words.getD j 0)
    (hne : a.words.getD i 0 ≠ b.words.getD i 0) :
    bignum_cmp (some a) (some b) =
      if b.words.getD i 0 < a.words.getD i 0 then 1 else -1 := by
  rw [bignum_cmp_some_some, if_neg (by omega), if_neg (by omega)]
  exact cmp_words_first_diff a.words b.words a.len i hi habove hne

/-- Witness for C4 at `a = [1, 5, 3]`, `b = [1, 4, 9]` (first difference
scanning from the top is at index 2, where `3 < 9`). -/
theorem bignum_cmp_ms_limb_priority_witness :
    bignum_cmp (some ⟨[1, 5, 3], 3⟩) (some ⟨[1, 4, 9], 3⟩) = -1 := by
  have h := bignum_cmp_ms_limb_priority ⟨[1, 5, 3], 3⟩ ⟨[1, 4, 9], 3⟩ rfl 2
    (by decide)
    (fun j hj1 hj2 => by
      have h3 : j < 3 := hj2
      exact absurd h3 (by omega))
    (by decide)
  rw [if_neg (by decide)] at h
  exact h

/-- C5: with equal used-lengths and every limb below the length agreeing
(including the trivial case of length 0), `bignum_cmp` returns `0`. -/
theorem bignum_cmp_equal_limbs (a b : bignum_t) (hlen : a.len = b.len)
    (heq : ∀ i < a.len, a.words.getD i 0 = b.words.getD i 0) :
    bignum_cmp (some a) (some b) = 0 := by
  rw [bignum_cmp_some_some, if_neg (by omega), if_neg (by omega)]
  exact cmp_words_eq_zero a.words b.words a.len heq

/-- Witness for C5 at `[1, 2, 3]` against an equal copy. -/
theorem bignum_cmp_equal_limbs_witness :
    bignum_cmp (some ⟨[1, 2, 3], 3⟩) (some ⟨[1, 2, 3], 3⟩) = 0 :=
  bignum_cmp_equal_limbs ⟨[1, 2, 3], 3⟩ ⟨[1, 2, 3], 3⟩ rfl
    (fun i hi => by
      have h3 : i < 3 := hi
      interval_cases i <;> rfl)

/-- C6: antisymmetry of the three-way comparison on present arguments:
`bignum_cmp a b = -bignum_cmp b a` (proved for all `bignum_t` pairs, in
particular all pairs with `0 ≤ len ≤ CAPACITY`). -/
theorem bignum_cmp_antisymm (a b : bignum_t) :
    bignum_cmp (some a) (some b) = -bignum_cmp (some b) (some a) := by
  rw [bignum_cmp_some_some, bignum_cmp_some_some]
  rcases Nat.lt_trichotomy a.len b.len with h | h | h
  · rw [if_neg (by omega), if_pos h, if_pos h]
  · rw [if_neg (by omega), if_neg (by omega), if_neg (by omega), if_neg (by omega), h]
    exact cmp_words_neg b.words a.words b.len
  · rw [if_pos h, if_neg (by omega), if_pos h]
    decide

/-- C7: on present arguments `bignum_cmp` (a total function, so it
terminates on every input) returns exactly one of `{-1, 0, 1}`; over all
inputs the output range is exactly `{1, 0, -1, INT_MIN}`, each value
being attained. -/
theorem bignum_cmp_total_range :
    (∀ a b : bignum_t,
        bignum_cmp (some a) (some b) = -1 ∨ bignum_cmp (some a) (some b) = 0 ∨
          bignum_cmp (some a) (some b) = 1) ∧
    (∀ x y : Option bignum_t,
        bignum_cmp x y = -1 ∨ bignum_cmp x y = 0 ∨ bignum_cmp x y = 1 ∨
          bignum_cmp x y = INT_MIN) ∧
    (∃ x y, bignum_cmp x y = 1) ∧ (∃ x y, bignum_cmp x y = 0) ∧
    (∃ x y, bignum_cmp x y = -1) ∧ (∃ x y, bignum_cmp x y = INT_MIN) := by
  have hrange : ∀ a b : bignum_t,
      bignum_cmp (some a) (some b) = -1 ∨ bignum_cmp (some a) (some b) = 0 ∨
        bignum_cmp (some a) (some b) = 1 := by
    intro a b
    rw [bignum_cmp_some_some]
    rcases Nat.lt_trichotomy a.len b.len with h | h | h
    · rw [if_neg (by omega), if_pos h]
      left; rfl
    · rw [if_neg (by omega), if_neg (by omega)]
      exact cmp_words_mem_range a.words b.words a.len
    · rw [if_pos h]
      right; right; rfl
  refine ⟨hrange, ?_,
    ⟨some ⟨[1], 1⟩, some ⟨[], 0⟩, by decide⟩,
    ⟨some ⟨[], 0⟩, some ⟨[], 0⟩, by decide⟩,
    ⟨some ⟨[], 0⟩, some ⟨[1], 1⟩, by decide⟩,
    ⟨none, none, by decide⟩⟩
  intro x y
  match x, y with
  | some a, some b =>
    rcases hrange a b with h | h | h
    · left; exact h
    · right; left; exact h
    · right; right; left; exact h
  | none, _ => right; right; right; rfl
  | some _, none => right; right; right; rfl

/-- C8: reflexivity: `bignum_cmp a a = 0` for every present argument. -/
theorem bignum_cmp_refl (a : bignum_t) :
    bignum_cmp (some a) (some a) = 0 := by
  rw [bignum_cmp_some_some, if_neg (by omega), if_neg (by omega)]
  exact cmp_words_eq_zero a.words a.words a.len (fun i _ => rfl)

/-- C9: the result depends only on the used-lengths and the limbs at
indices strictly below them: replacing an argument by one with the same
used-length and the same limbs below it leaves the result unchanged, in
either argument position — limbs stored at indices `≥ len` never
influence the result. -/
theorem bignum_cmp_unused_limbs_irrelevant (a a' b : bignum_t)
    (hlen : a.len = a'.len)
    (hw : ∀ i < a.len, a.words.getD i 0 = a'.words.getD i 0) :
    bignum_cmp (some a) (some b) = bignum_cmp (some a') (some b) ∧
    bignum_cmp (some b) (some a) = bignum_cmp (some b) (some a') := by
  constructor
  · rw [bignum_cmp_some_some, bignum_cmp_some_some, ← hlen]
    rcases Nat.lt_trichotomy a.len b.len with h | h | h
    · rw [if_neg (by omega), if_pos h, if_neg (by omega), if_pos h]
    · rw [if_neg (by omega), if_neg (by omega), if_neg (by omega), if_neg (by omega)]
      exact cmp_words_congr a.words b.words a'.words b.words a.len hw (fun i _ => rfl)
    · rw [if_pos h, if_pos h]
  · rw [bignum_cmp_some_some, bignum_cmp_some_some, ← hlen]
    rcases Nat.lt_trichotomy b.len a.len with h | h | h
    · rw [if_neg (by omega), if_pos h, if_neg (by omega), if_pos h]
    · rw [if_neg (by omega), if_neg (by omega), if_neg (by omega), if_neg (by omega)]
      exact cmp_words_congr b.words a.words b.words a'.words b.len (fun i _ => rfl)
        (fun i hi => hw i (by omega))
    · rw [if_pos h, if_pos h]

/-- Witness for C9: a junk limb `9` stored above the used-length 2 does
not change the comparison against `[1, 2]`. -/
theorem bignum_cmp_unused_limbs_irrelevant_witness :
    bignum_cmp (some ⟨[1, 2, 9], 2⟩) (some ⟨[1, 2], 2⟩) =
      bignum_cmp (some ⟨[1, 2, 0], 2⟩) (some ⟨[1, 2], 2⟩) :=
  (bignum_cmp_unused_limbs_irrelevant ⟨[1, 2, 9], 2⟩ ⟨[1, 2, 0], 2⟩ ⟨[1, 2], 2⟩ rfl
    (fun i hi => by
      have h2 : i < 2 := hi
      interval_cases i <;> rfl)).1

/-- C10: transitivity of the ordering induced by `bignum_cmp` on
well-formed inputs: `a > b` and `b > c` give `a > c`, and `a = b` and
`b = c` give `a = c` (the lexicographic order on
`(length, limbs scanned most-significant-first)` is a strict total
order). -/
theorem bignum_cmp_trans (cap : Nat) (a b c : bignum_t)
    (ha : wf cap a) (hb : wf cap b) (hc : wf cap c) :
    ((bignum_cmp (some a) (some b) = 1 → bignum_cmp (some b) (some c) = 1 →
        bignum_cmp (some a) (some c) = 1) ∧
      (bignum_cmp (some a) (some b) = 0 → bignum_cmp (some b) (some c) = 0 →
        bignum_cmp (some a) (some c) = 0)) := by
  constructor
  · intro h1 h2
    rw [bignum_cmp_eq_one_iff ha hb] at h1
    rw [bignum_cmp_eq_one_iff hb hc] at h2
    rw [bignum_cmp_eq_one_iff ha hc]
    rcases h1 with h1 | ⟨e1, v1⟩ <;> rcases h2 with h2 | ⟨e2, v2⟩
    · left; omega
    · left; omega
    · left; omega
    · right; exact ⟨by omega, by omega⟩
  · intro h1 h2
    rw [bignum_cmp_eq_zero_iff ha hb] at h1
    rw [bignum_cmp_eq_zero_iff hb hc] at h2
    rw [bignum_cmp_eq_zero_iff ha hc]
    exact ⟨by omega, by omega⟩

/-- Witness for C10's strict case at `[2] > [1] > [0]` (capacity 1). -/
theorem bignum_cmp_trans_witness :
    bignum_cmp (some ⟨[2], 1⟩) (some ⟨[0], 1⟩) = 1 :=
  (bignum_cmp_trans 1 ⟨[2], 1⟩ ⟨[1], 1⟩ ⟨[0], 1⟩
    (by decide) (by decide) (by decide)).1 (by decide) (by decide)

end BignumCmp
